import Mathlib

/-! # Verification of the Historian chunked fetch/bucket/merge pipeline

A shallow embedding of the core data path of the Historian application
(`backend/historian_processor.py`, `backend/app.py`,
`backend/connection_pool.py`) together with proofs and refutations of the
specification's claims about it.

Conventions:
* timestamps are modelled as `Int` seconds (SQL `DATEDIFF(SECOND, a, b)`
  is `b - a`, `DATEADD(SECOND, d, a)` is `a + d`);
* SQL integer division truncates toward zero, modelled by `Int.tdiv`;
* sample values are `ℚ`; a `TagData.Value` that may be SQL `NULL` is
  `Option ℚ`;
* a tag's raw rows are `List (Int × Option ℚ)` pairs `(Timestamp, Value)`.
-/

namespace Historian

/-! ## The bucketed aggregation query of `process_data_in_chunks`

`historian_processor.py` lines 531-555.  The query, for a chunk
`[cs, ce)` and an interval of `I` seconds, computes for each raw row
`DATEADD(SECOND, CAST((DATEDIFF(SECOND, cs, Timestamp) / I) * I AS BIGINT), cs)`
as the bucket timestamp (both `?`-parameters of the `DATEADD`/`DATEDIFF`
are bound to `current_chunk_start`, lines 558-566), restricts to rows of
the tag with `cs <= Timestamp < ce` and `Value IS NOT NULL`, groups by
bucket timestamp, emits `AVG(CAST(Value AS FLOAT))` per group with
`HAVING COUNT(*) > 0`, ordered by bucket timestamp. -/

/-- Bucket timestamp of a raw timestamp `t` relative to `origin` with
interval `I`: `origin + ((t - origin) / I) * I` with SQL (truncating)
integer division. -/
def bucketOf (origin I t : Int) : Int :=
  origin + ((t - origin).tdiv I) * I

/-- The `WHERE` clause of the bucketed query applied to one raw row:
keeps `(Timestamp, Value)` when `lo <= Timestamp < hi` and the value is
not `NULL`. -/
def sampleVal (lo hi : Int) (r : Int × Option ℚ) : Option (Int × ℚ) :=
  match r.2 with
  | some v => if lo ≤ r.1 ∧ r.1 < hi then some (r.1, v) else none
  | none => none

/-- All rows of the tag surviving the query's `WHERE` clause. -/
def samplesIn (rows : List (Int × Option ℚ)) (lo hi : Int) : List (Int × ℚ) :=
  rows.filterMap (sampleVal lo hi)

/-- Ascending duplicate-free list of keys, as produced by
`GROUP BY bucket_timestamp ... ORDER BY bucket_timestamp`. -/
def sortKeys (l : List Int) : List Int :=
  l.dedup.insertionSort (· ≤ ·)

/-- The bucket timestamps of the query result (the `GROUP BY` keys). -/
def bucketKeys (origin I : Int) (samples : List (Int × ℚ)) : List Int :=
  sortKeys (samples.map (fun p => bucketOf origin I p.1))

/-- The sample values aggregated into the group of bucket timestamp `b`. -/
def groupVals (origin I b : Int) (samples : List (Int × ℚ)) : List ℚ :=
  (samples.filter (fun p => decide (bucketOf origin I p.1 = b))).map Prod.snd

/-- `AVG` of a list of values. -/
def mean (l : List ℚ) : ℚ :=
  l.sum / (l.length : ℚ)

/-- The bucketed aggregation query over window `[lo, hi)` with bucket
origin `origin`: one `(bucket_timestamp, AVG(Value))` row per non-empty
group, ascending.  In the source the origin is always the window start;
the origin is a separate parameter here so that the same definition also
expresses the one-pass/global-origin bucketing the spec compares
against. -/
def bucketQuery (rows : List (Int × Option ℚ)) (origin lo hi I : Int) :
    List (Int × ℚ) :=
  (bucketKeys origin I (samplesIn rows lo hi)).map
    (fun b => (b, mean (groupVals origin I b (samplesIn rows lo hi))))

/-- The query exactly as issued for a chunk (lines 558-566): the bucket
origin is `current_chunk_start`, i.e. the chunk's own start. -/
def chunkQuery (rows : List (Int × Option ℚ)) (cs ce I : Int) :
    List (Int × ℚ) :=
  bucketQuery rows cs cs ce I

/-! ## The chunk walk of `process_data_in_chunks`

Lines 522-526 and 594: `chunk_size = timedelta(days=1)`;
`while current_chunk_start < end_date:` with
`current_chunk_end = min(current_chunk_start + chunk_size, end_date)` and,
on success, `current_chunk_start = current_chunk_end`. -/

/-- One day in seconds, the fixed chunk width. -/
def chunkSeconds : Int := 86400

/-- The successive `[current_chunk_start, current_chunk_end)` windows the
loop visits when every chunk succeeds. -/
def chunkWindows (cur fin : Int) : List (Int × Int) :=
  if _h : cur < fin then
    (cur, min (cur + chunkSeconds) fin) ::
      chunkWindows (min (cur + chunkSeconds) fin) fin
  else []
termination_by (fin - cur).toNat
decreasing_by
  simp only [chunkSeconds] at *
  omega

/-- The buckets emitted by `process_data_in_chunks` for the whole range
(success path, in emission order): the concatenation of the per-chunk
query results. -/
def processDataInChunks (rows : List (Int × Option ℚ)) (s e I : Int) :
    List (Int × ℚ) :=
  ((chunkWindows s e).map (fun w => chunkQuery rows w.1 w.2 I)).flatten

/-! ## The failure path of the chunk loop

`historian_processor.py` lines 525-594.  The body of
`while current_chunk_start < end_date:` is wrapped in `try/except`; the
handler (lines 588-592) logs and executes `continue`, and the advance
`current_chunk_start = current_chunk_end` (line 594) stands *after* the
`try/except`, so `continue` skips it. -/

/-- Value of `current_chunk_start` after one iteration of the loop, given
a predicate `fails` saying which chunk windows raise inside the `try`
block (connection failure, query timeout, ...): on success the cursor
moves to `current_chunk_end`; on an exception `continue` skips the
advance, leaving the cursor unchanged. -/
def chunkLoopStep (fails : Int → Int → Bool) (fin cur : Int) : Int :=
  let ce := min (cur + chunkSeconds) fin
  if fails cur ce then cur else ce

/-- The loop cursor after `n` iterations (unchanged once the loop guard
`current_chunk_start < end_date` fails and the loop exits). -/
def chunkLoopIter (fails : Int → Int → Bool) (fin : Int) : Nat → Int → Int
  | 0, cur => cur
  | n + 1, cur =>
      if cur < fin then chunkLoopIter fails fin n (chunkLoopStep fails fin cur)
      else cur

/-! ## Frequency strings

`convert_time_to_seconds` / `validate_frequency` /
`process_data_in_chunks` all parse `HH:MM:SS` strings with Python's
`str.split(':')` and `int(...)`.  Strings are modelled as `List Char`. -/

/-- Python `str.split(c)`: splits on *every* occurrence of the separator,
keeping empty pieces (`"::".split(':') == ['', '', '']`). -/
def splitOnChar (c : Char) : List Char → List (List Char)
  | [] => [[]]
  | x :: rest =>
    let r := splitOnChar c rest
    if x = c then [] :: r
    else
      match r with
      | h :: t => (x :: h) :: t
      | [] => [[x]]

/-- Continuation of a Python `int()` digit run: digits, with single
underscores allowed between digits. -/
def pyDigitsRest : List Char → Bool
  | [] => true
  | '_' :: c :: rest => c.isDigit && pyDigitsRest rest
  | ['_'] => false
  | c :: rest => c.isDigit && pyDigitsRest rest

/-- A valid Python `int()` digit run: nonempty, starts with a digit. -/
def isPyDigits : List Char → Bool
  | [] => false
  | c :: rest => c.isDigit && pyDigitsRest rest

/-- Numeric value of a digit run (underscores skipped). -/
def digitsToNat (cs : List Char) : Nat :=
  cs.foldl (fun n c => if c = '_' then n else n * 10 + (c.toNat - 48)) 0

/-- Python `str.strip()` of surrounding whitespace. -/
def pyStrip (cs : List Char) : List Char :=
  ((cs.dropWhile Char.isWhitespace).reverse.dropWhile Char.isWhitespace).reverse

/-- Model of Python `int(s)` for a decimal string: surrounding whitespace
stripped, optional single sign, then a digit run; `none` models the
`ValueError` raised otherwise. -/
def pyInt (s : List Char) : Option Int :=
  match pyStrip s with
  | '+' :: rest => if isPyDigits rest then some (digitsToNat rest) else none
  | '-' :: rest => if isPyDigits rest then some (-(digitsToNat rest : Int)) else none
  | rest => if isPyDigits rest then some (digitsToNat rest) else none

/-- Line 508-509 of `process_data_in_chunks`:
`hours, minutes, seconds = map(int, frequency.split(':'))` followed by
`interval_seconds = hours * 3600 + minutes * 60 + seconds`; `none` models
the `ValueError` (wrong number of parts, or a part `int()` rejects)
caught by the enclosing `try`. -/
def parseFreq (frequency : List Char) : Option Int :=
  match (splitOnChar ':' frequency).map pyInt with
  | [some hours, some minutes, some seconds] =>
      some (hours * 3600 + minutes * 60 + seconds)
  | _ => none

/-- `validate_frequency` (`historian_processor.py` lines 416-435): checks
the string has exactly two `:`, parses the three parts with `int`,
requires `0 <= hours <= 23`, `0 <= minutes <= 59`, `0 <= seconds <= 59`,
and a positive total; any `ValueError` yields `False`. -/
def validate_frequency (frequency : List Char) : Bool :=
  if frequency.count ':' = 2 then
    match (splitOnChar ':' frequency).map pyInt with
    | [some hours, some minutes, some seconds] =>
      if 0 ≤ hours ∧ hours ≤ 23 ∧ 0 ≤ minutes ∧ minutes ≤ 59 ∧
          0 ≤ seconds ∧ seconds ≤ 59 then
        decide (hours * 3600 + minutes * 60 + seconds > 0)
      else false
    | _ => false
  else false

/-! ## The database and the remote calls of `process_data`

`TagData` rows are `(TagName, Timestamp, Value)`.  `process_data`
(lines 438-471) first runs `verify_data_exists` (lines 305-347, two
remote queries: a tag-existence check and a range check), then drains
`process_data_in_chunks`, concatenates the chunks and sorts.  The remote
queries each function issues are recorded as a trace. -/

/-- One remote query against the store. -/
inductive DbCall where
  | tagCheck (tag : String)
  | dataCheck (tag : String) (s e : Int)
  | chunkQueryCall (tag : String) (cs ce : Int)
  deriving DecidableEq, Repr

/-- Whether a remote call is a bucketed chunk query. -/
def DbCall.isChunkQuery : DbCall → Bool
  | .chunkQueryCall _ _ _ => true
  | _ => false

/-- The remote `TagData` table. -/
structure TagDB where
  rows : List (String × Int × Option ℚ)

/-- The `(Timestamp, Value)` rows of one tag, in table order. -/
def TagDB.tagRows (db : TagDB) (tag : String) : List (Int × Option ℚ) :=
  (db.rows.filter (fun r => r.1 == tag)).map (fun r => r.2)

/-- `SELECT TOP 1 1 FROM TagData WHERE TagName = ?` (lines 312-314). -/
def tagExists (db : TagDB) (tag : String) : Bool :=
  db.rows.any (fun r => r.1 == tag)

/-- The range check of `verify_data_exists` (lines 321-335):
`Timestamp >= start AND Timestamp < end` for the tag. -/
def hasDataInRange (db : TagDB) (tag : String) (s e : Int) : Bool :=
  db.rows.any (fun r => r.1 == tag && decide (s ≤ r.2.1) && decide (r.2.1 < e))

/-- `verify_data_exists` (lines 305-347): result and the remote queries
it issues (the range query only runs when the tag-existence check
succeeds). -/
def verify_data_exists (db : TagDB) (tag : String) (s e : Int) :
    Bool × List DbCall :=
  if tagExists db tag then
    (hasDataInRange db tag s e, [.tagCheck tag, .dataCheck tag s e])
  else (false, [.tagCheck tag])

/-- The chunk queries issued by `process_data_in_chunks` on its success
path: none when the frequency fails to parse (the `ValueError` is caught
at line 596 and the generator just yields `None`), none when
`interval_seconds == 0` (lines 517-520), otherwise one per chunk
window. -/
def processDataInChunksCalls (tag : String) (s e : Int)
    (frequency : List Char) : List DbCall :=
  match parseFreq frequency with
  | none => []
  | some I =>
      if I = 0 then []
      else (chunkWindows s e).map (fun w => DbCall.chunkQueryCall tag w.1 w.2)

/-- The buckets `process_data_in_chunks` yields over the whole range on
its success path (empty on a parse failure or a zero interval). -/
def processDataInChunksData (db : TagDB) (tag : String) (s e : Int)
    (frequency : List Char) : List (Int × ℚ) :=
  match parseFreq frequency with
  | none => []
  | some I =>
      if I = 0 then [] else processDataInChunks (db.tagRows tag) s e I

/-- `result.sort_index()` of `process_data` (line 463). -/
def sortByTs (l : List (Int × ℚ)) : List (Int × ℚ) :=
  l.insertionSort (fun a b => a.1 ≤ b.1)

/-- `process_data` (lines 438-471): verify first; on a negative
verification return `None`; otherwise drain the chunk generator, return
`None` when no chunk produced data, else the concatenated sorted rows.
The second component is the trace of remote queries issued, in order. -/
def process_data (db : TagDB) (tag : String) (s e : Int)
    (frequency : List Char) : Option (List (Int × ℚ)) × List DbCall :=
  let v := verify_data_exists db tag s e
  if v.1 then
    let data := processDataInChunksData db tag s e frequency
    ((if data.isEmpty then none else some (sortByTs data)),
      v.2 ++ processDataInChunksCalls tag s e frequency)
  else (none, v.2)

/-! ## Tag validation

`validate_tags` (`historian_processor.py` lines 391-414) and the caller
check `if not valid_tags: return jsonify({"error": ...}), 400`
(`app.py` lines 368-371). -/

/-- `validate_tags`: keeps the tags whose existence check succeeds, in
order; a missing tag is only logged, never an error. -/
def validate_tags (db : TagDB) (tags : List String) : List String :=
  tags.filter (fun t => tagExists db t)

/-- The caller's use of the valid set (`app.py` lines 368-371): an empty
valid set is the reportable error `"No valid tags found"`; otherwise the
request proceeds with the subset. -/
def processRequestTags (db : TagDB) (tags : List String) :
    Except String (List String) :=
  let valid := validate_tags db tags
  if valid.isEmpty then Except.error "No valid tags found" else Except.ok valid

/-! ## The delegated-resampling export of `app.py`

`export_data` (`app.py` lines 162-244): per tag, walk the range in
six-hour steps with `while current_time <= end_time:` and
`chunk_end = min(current_time + query_step, end_time)`, query the store
for pre-resampled rows with *inclusive* bounds
`timestamp >= current_time AND timestamp <= chunk_end`, extend `all_data`
with every returned row, and advance `current_time += query_step`.  The
collected rows are then pivoted by `(timestamp, tagname)`
(`df.pivot`, line 223), which raises when any `(timestamp, tagname)` pair
occurs twice. -/

/-- Six hours in seconds (`query_step = timedelta(hours=6)`). -/
def exportStepSeconds : Int := 21600

/-- The `[current_time, chunk_end]` windows the export loop queries
(note the loop guard is `<=`, and the step always advances by the full
`query_step`). -/
def exportWindows (cur fin : Int) : List (Int × Int) :=
  if _h : cur ≤ fin then
    (cur, min (cur + exportStepSeconds) fin) ::
      exportWindows (cur + exportStepSeconds) fin
  else []
termination_by (fin + exportStepSeconds - cur).toNat
decreasing_by
  simp only [exportStepSeconds] at *
  omega

/-- The rows collected into `all_data` for one tag whose store-side
resampled series is `series`: each window returns the rows with
`window_start <= timestamp <= window_end` (both bounds inclusive), and
the loop concatenates them with no deduplication. -/
def exportFetchTag (series : List (Int × ℚ)) (s e : Int) : List (Int × ℚ) :=
  ((exportWindows s e).map
    (fun w => series.filter (fun p => decide (w.1 ≤ p.1 ∧ p.1 ≤ w.2)))).flatten

/-- Whether `df.pivot(index='timestamp', columns='tagname', ...)`
succeeds on one tag's collected rows: pandas raises
`ValueError: Index contains duplicate entries` when a
`(timestamp, tagname)` pair repeats, which for a single tag means a
repeated timestamp. -/
def pivotOk (rowsAll : List (Int × ℚ)) : Bool :=
  decide (rowsAll.map Prod.fst).Nodup

/-! ## `merge_dataframes`

`historian_processor.py` lines 601-623.  A per-tag dataframe is its
(timestamp, value) rows; the merged table is rows of
`(timestamp, cells)`, one optional cell per tag column.  The source
starts from the first dict value, outer-joins every further dataframe on
the index (`pd.merge(..., left_index=True, right_index=True,
how='outer')`; the `if df is not merged_df` identity test skips exactly
the first dict value, since every later `merged_df` is a fresh object),
sorts by index, and gap-fills with `.ffill().bfill()`. -/

/-- Value of a single-column dataframe at a timestamp, if present. -/
def lookupVal (df : List (Int × ℚ)) (ts : Int) : Option ℚ :=
  (df.find? (fun p => p.1 == ts)).map Prod.snd

/-- One outer merge on index of the accumulated table (rows of `ncols`
cells) with the next single-column dataframe: matched rows gain the new
column's value, unmatched left rows gain an empty cell, and unmatched
right rows become new rows with `ncols` empty cells before the new
value. -/
def outerJoinRows (acc : List (Int × List (Option ℚ))) (ncols : Nat)
    (df : List (Int × ℚ)) : List (Int × List (Option ℚ)) :=
  (acc.map (fun r => (r.1, r.2 ++ [lookupVal df r.1]))) ++
    ((df.filter (fun p => decide (p.1 ∉ acc.map Prod.fst))).map
      (fun p => (p.1, List.replicate ncols (none : Option ℚ) ++ [some p.2])))

/-- Folds the outer merge over the remaining dataframes (the loop at
lines 610-618). -/
def joinAll (acc : List (Int × List (Option ℚ))) (ncols : Nat) :
    List (List (Int × ℚ)) → List (Int × List (Option ℚ))
  | [] => acc
  | df :: rest => joinAll (outerJoinRows acc ncols df) (ncols + 1) rest

/-- `merged_df.sort_index()` (line 621). -/
def sortRows (rows : List (Int × List (Option ℚ))) :
    List (Int × List (Option ℚ)) :=
  rows.insertionSort (fun a b => a.1 ≤ b.1)

/-- The merged, sorted table before gap-filling: lines 601-621. -/
def mergeAligned (dfs : List (String × List (Int × ℚ))) :
    List (Int × List (Option ℚ)) :=
  match dfs with
  | [] => []
  | d :: rest =>
      sortRows (joinAll (d.2.map (fun p => (p.1, [some p.2]))) 1
        (rest.map (fun q => q.2)))

/-- One `ffill` pass over the rows: each empty cell takes the value its
column carried from the rows above. -/
def ffillRows (carry : List (Option ℚ)) :
    List (Int × List (Option ℚ)) → List (Int × List (Option ℚ))
  | [] => []
  | r :: rest =>
      let filled := List.zipWith (fun v c => v.or c) r.2 carry
      (r.1, filled) :: ffillRows filled rest

/-- `bfill` is `ffill` run upwards from the bottom. -/
def bfillRows (ncols : Nat) (rows : List (Int × List (Option ℚ))) :
    List (Int × List (Option ℚ)) :=
  (ffillRows (List.replicate ncols none) rows.reverse).reverse

/-- `merge_dataframes` (lines 601-623): outer-join all dataframes on
index, sort, then `.ffill().bfill()`. -/
def merge_dataframes (dfs : List (String × List (Int × ℚ))) :
    List (Int × List (Option ℚ)) :=
  bfillRows dfs.length
    (ffillRows (List.replicate dfs.length none) (mergeAligned dfs))

/-! ## The connection pool

`connection_pool.py`: a FIFO `Queue` of `pool_size` handles filled at
construction; `get_connection` takes the front handle, yields it to the
borrowing operation, and the `finally` block puts it back whether the
body returned or raised. -/

/-- What the borrowing operation does with the handle. -/
inductive BodyOutcome where
  | ok
  | raised
  deriving DecidableEq

/-- The pool state: the queue of available handles (front = next
dispensed). -/
structure ConnectionPool where
  pool : List Nat

/-- `ConnectionPool.__init__`: `pool_size` fresh handles. -/
def ConnectionPool.init (poolSize : Nat) : ConnectionPool :=
  ⟨List.range poolSize⟩

/-- `get_connection` used as a context manager around one body:
`connection = self.pool.get()`, run the body, and in `finally`
`self.pool.put(connection)` — the handle returns to the queue whether
the body finished or raised.  `none` models the caller still blocked in
`Queue.get` on an empty pool (no state change has happened yet). -/
def get_connection (p : ConnectionPool) (body : Nat → BodyOutcome) :
    Option (BodyOutcome × ConnectionPool) :=
  match p.pool with
  | [] => none
  | c :: rest => some (body c, ⟨rest ++ [c]⟩)

/-- A sequence of borrow/run/return cycles against the pool. -/
def runOps (p : ConnectionPool) : List (Nat → BodyOutcome) → ConnectionPool
  | [] => p
  | body :: rest =>
      match get_connection p body with
      | some (_, p2) => runOps p2 rest
      | none => runOps p rest

/-! ## Specification-side helpers

Used only to *state* properties; they are the spec's vocabulary
(`nearest earlier value`, `nearest later value`, a table column), not
translations of source code. -/

/-- The value of the nearest row at or above index `i` that has one. -/
def nearestEarlier (col : List (Option ℚ)) (i : Nat) : Option ℚ :=
  ((col.take (i + 1)).reverse).findSome? id

/-- The value of the nearest row at or below index `i` that has one. -/
def nearestLater (col : List (Option ℚ)) (i : Nat) : Option ℚ :=
  (col.drop i).findSome? id

/-- Column `j` of a merged table. -/
def colAt (rows : List (Int × List (Option ℚ))) (j : Nat) : List (Option ℚ) :=
  rows.map (fun r => r.2.getD j none)

/-- Scalar forward fill of one column with an incoming carry. -/
def ffillCol (carry : Option ℚ) : List (Option ℚ) → List (Option ℚ)
  | [] => []
  | v :: rest => (v.or carry) :: ffillCol (v.or carry) rest

/-- The row ordering used by `sort_index`: compare row timestamps. -/
instance : IsTotal (Int × List (Option ℚ)) (fun a b => a.1 ≤ b.1) :=
  ⟨fun a b => Int.le_total a.1 b.1⟩

instance : IsTrans (Int × List (Option ℚ)) (fun a b => a.1 ≤ b.1) :=
  ⟨fun _ _ _ h1 h2 => le_trans h1 h2⟩

/-! # Theorems -/

/-! ## Connection pool (claim C9) -/

theorem runOps_perm (ops : List (Nat → BodyOutcome)) (p : ConnectionPool) :
    (runOps p ops).pool.Perm p.pool := by
  induction ops generalizing p with
  | nil => exact List.Perm.refl _
  | cons body rest ih =>
    obtain ⟨l⟩ := p
    cases l with
    | nil => exact ih ⟨[]⟩
    | cons c cs =>
      simp only [runOps, get_connection]
      exact ((ih ⟨cs ++ [c]⟩).trans (List.perm_append_singleton c cs))

/-- C9: every handle borrowed through `get_connection` is returned on
every exit path of the borrowing body (the `finally` returns it whether
the body finished or raised), so after any sequence of borrow/return
cycles the pool still holds exactly the `poolSize` handles created at
construction — the same multiset, none duplicated, none dropped. -/
theorem connection_pool_strict_multiset (poolSize : Nat)
    (ops : List (Nat → BodyOutcome)) :
    ((runOps (ConnectionPool.init poolSize) ops).pool).Perm
        (List.range poolSize) ∧
      (runOps (ConnectionPool.init poolSize) ops).pool.length = poolSize := by
  have h := runOps_perm ops (ConnectionPool.init poolSize)
  refine ⟨h, ?_⟩
  have := h.length_eq
  simpa [ConnectionPool.init] using this

/-! ## Tag validation (claim C8) -/

/-- C8: `validate_tags` returns exactly the sub-list of input tags whose
existence check succeeds (a failing tag is dropped, not an error), and
the caller reports the error `"No valid tags found"` precisely when that
valid set is empty; otherwise the request proceeds with the subset. -/
theorem validate_tags_drops_and_keeps (db : TagDB) (tags : List String) :
    (∀ t, t ∈ validate_tags db tags ↔ t ∈ tags ∧ tagExists db t = true) ∧
      (validate_tags db tags ≠ [] →
        processRequestTags db tags = Except.ok (validate_tags db tags)) ∧
      (validate_tags db tags = [] →
        processRequestTags db tags = Except.error "No valid tags found") := by
  refine ⟨fun t => ?_, fun hne => ?_, fun he => ?_⟩
  · simp [validate_tags, List.mem_filter]
  · simp only [processRequestTags]
    rw [if_neg (by simpa [List.isEmpty_iff] using hne)]
  · simp only [processRequestTags]
    rw [if_pos (by simpa [List.isEmpty_iff] using he)]

/-! ## The chunk-failure loop (claim C2) -/

/-- C2 is a code bug: on a chunk-level failure the `except` handler runs
`continue`, which skips the advance `current_chunk_start =
current_chunk_end` (it stands after the `try/except`), so the loop
retries the *same* window.  For a persistently failing chunk the cursor
never changes: however many iterations run, the generator never reaches
the next chunk window and never terminates — instead of skipping the
chunk as the claim states. -/
theorem chunk_failure_never_advances (fails : Int → Int → Bool)
    (fin cur : Int) (hlt : cur < fin)
    (hfail : fails cur (min (cur + chunkSeconds) fin) = true) :
    ∀ n, chunkLoopIter fails fin n cur = cur := by
  intro n
  induction n with
  | zero => rfl
  | succ n ih =>
    simp only [chunkLoopIter, chunkLoopStep, hfail, if_pos hlt, if_pos trivial]
    simpa [hfail] using ih

/-- Witness: a first chunk that always fails pins the cursor at the range
start forever. -/
theorem chunk_failure_never_advances_witness :
    (0 : Int) < 172800 ∧
      (fun (cs : Int) (_ : Int) => decide (cs = 0)) 0
          (min ((0 : Int) + chunkSeconds) 172800) = true ∧
      chunkLoopIter (fun (cs : Int) (_ : Int) => decide (cs = 0)) 172800 5 0 = 0 :=
  ⟨by norm_num, by norm_num,
    chunk_failure_never_advances (fun (cs : Int) (_ : Int) => decide (cs = 0))
      172800 0 (by norm_num) (by norm_num) 5⟩

/-! ## Frequency validation (claim C10) -/

/-- C10: `validate_frequency` accepts only strings with exactly two `:`
whose three `int()`-parsed components satisfy `0 ≤ hours ≤ 23`,
`0 ≤ minutes ≤ 59`, `0 ≤ seconds ≤ 59` with a positive total; the total
is therefore at most `86399` seconds (`23:59:59`), an upper bound on the
interval beyond the spec's positivity requirement. -/
theorem validate_frequency_bounds (frequency : List Char)
    (h : validate_frequency frequency = true) :
    frequency.count ':' = 2 ∧
      ∃ hours minutes seconds : Int,
        (splitOnChar ':' frequency).map pyInt =
            [some hours, some minutes, some seconds] ∧
          0 ≤ hours ∧ hours ≤ 23 ∧ 0 ≤ minutes ∧ minutes ≤ 59 ∧
          0 ≤ seconds ∧ seconds ≤ 59 ∧
          0 < hours * 3600 + minutes * 60 + seconds ∧
          hours * 3600 + minutes * 60 + seconds ≤ 86399 := by
  unfold validate_frequency at h
  split at h
  · next hcount =>
    refine ⟨hcount, ?_⟩
    split at h
    · next hours minutes seconds heq =>
      refine ⟨hours, minutes, seconds, heq, ?_⟩
      split at h
      · next hranges =>
        obtain ⟨h1, h2, h3, h4, h5, h6⟩ := hranges
        have hpos := of_decide_eq_true h
        exact ⟨h1, h2, h3, h4, h5, h6, hpos, by omega⟩
      · exact absurd h (by simp)
    · exact absurd h (by simp)
  · exact absurd h (by simp)

/-- Witness: `23:59:59` (86399 s) is accepted and satisfies the bounds;
`24:00:00`, a longer positive duration, is rejected. -/
theorem validate_frequency_bounds_witness :
    validate_frequency ("24:00:00".toList) = false ∧
      (validate_frequency ("23:59:59".toList) = true ∧
        (("23:59:59".toList).count ':' = 2 ∧
          ∃ hours minutes seconds : Int,
            (splitOnChar ':' ("23:59:59".toList)).map pyInt =
                [some hours, some minutes, some seconds] ∧
              0 ≤ hours ∧ hours ≤ 23 ∧ 0 ≤ minutes ∧ minutes ≤ 59 ∧
              0 ≤ seconds ∧ seconds ≤ 59 ∧
              0 < hours * 3600 + minutes * 60 + seconds ∧
              hours * 3600 + minutes * 60 + seconds ≤ 86399)) :=
  ⟨by decide, by decide, validate_frequency_bounds ("23:59:59".toList) (by decide)⟩

/-! ## Chunk-seam bucket alignment (claim C1) -/

/-- C1 counterexample: the query buckets each chunk relative to the
chunk's own start, not the overall request start.  A single raw sample
at `t = 86400` (the first instant of the second one-day chunk) with a
7-hour interval (`25200` s, which does not divide a day) is emitted at
bucket timestamp `86400`, while one-pass bucketing of the same range
with the origin at the request start emits it at `75600 = 3 * 25200`;
`86400` is not of the form `start + k * 25200`, so the chunked bucket
set differs from the one-pass, global-origin bucket set. -/
theorem chunk_origin_misaligned :
    processDataInChunks [((86400 : Int), some (1 : ℚ))] 0 172800 25200 =
        [(86400, 1)] ∧
      bucketQuery [((86400 : Int), some (1 : ℚ))] 0 0 172800 25200 =
        [(75600, 1)] ∧
      ¬ (25200 : Int) ∣ (86400 - 0) := by
  refine ⟨?_, ?_, by decide⟩
  · rw [processDataInChunks, chunkWindows, chunkWindows, chunkWindows]
    norm_num [chunkSeconds, min_def, chunkQuery, bucketQuery, bucketKeys,
      samplesIn, sampleVal, sortKeys, groupVals, mean, bucketOf,
      Int.tdiv_eq_ediv, List.filter_cons, List.filterMap_cons,
      List.insertionSort, List.orderedInsert]
  · norm_num [bucketQuery, bucketKeys, samplesIn, sampleVal, sortKeys,
      groupVals, mean, bucketOf, Int.tdiv_eq_ediv, List.filter_cons,
      List.filterMap_cons, List.insertionSort, List.orderedInsert]

/-! ## Delegated-resampling export (claim C4) -/

/-- C4 is a code bug: the export loop queries adjacent six-hour chunks
with *inclusive* bounds (`timestamp >= current_time AND timestamp <=
chunk_end`), so a store row lying exactly on a chunk seam is returned by
both chunks, and `all_data` receives it twice — nothing deduplicates by
timestamp.  The subsequent `df.pivot` then sees a duplicate
`(timestamp, tagname)` pair and raises, failing the request, instead of
keeping one first-seen row per `(tag, timestamp)` as the claim states. -/
theorem export_data_seam_duplicate :
    exportFetchTag [((21600 : Int), (1 : ℚ))] 0 43200 =
        [(21600, 1), (21600, 1)] ∧
      pivotOk (exportFetchTag [((21600 : Int), (1 : ℚ))] 0 43200) = false := by
  have h1 : exportFetchTag [((21600 : Int), (1 : ℚ))] 0 43200 =
      [(21600, 1), (21600, 1)] := by
    rw [exportFetchTag, exportWindows, exportWindows, exportWindows,
      exportWindows]
    norm_num [exportStepSeconds, min_def, List.filter_cons]
  exact ⟨h1, by rw [h1]; decide⟩

/-! ## Configuration-error ordering (claim C3) -/

/-- C3 counterexample: a request whose interval is negative (hence
`interval <= 0`, a configuration error per the claim) is not rejected
before remote queries.  With frequency `0:0:-5` the parsed interval is
`-5`; it is not caught by the `interval_seconds == 0` guard, and
`process_data` issues the tag-existence check, the data-verification
query *and* a bucketed chunk query. -/
theorem process_data_invalid_interval_queries :
    parseFreq ("0:0:-5".toList) = some (-5) ∧ (-5 : Int) < 0 ∧
      (process_data ⟨[("T", 0, some 1)]⟩ "T" 0 86400 ("0:0:-5".toList)).2 =
        [DbCall.tagCheck "T", DbCall.dataCheck "T" 0 86400,
          DbCall.chunkQueryCall "T" 0 86400] := by
  refine ⟨by decide, by decide, ?_⟩
  have hpf : parseFreq ['0', ':', '0', ':', '-', '5'] = some (-5) := by decide
  rw [process_data]
  norm_num [verify_data_exists, tagExists, hasDataInRange,
    processDataInChunksCalls, hpf]
  rw [chunkWindows, chunkWindows]
  norm_num [chunkSeconds, min_def]

/-- No row can satisfy `s <= Timestamp < e` when `e <= s`. -/
theorem hasDataInRange_false (db : TagDB) (tag : String) {s e : Int}
    (h : e ≤ s) : hasDataInRange db tag s e = false := by
  simp only [hasDataInRange, List.any_eq_false]
  intro r _
  by_cases hst : s ≤ r.2.1
  · have hlt : ¬ r.2.1 < e := by omega
    simp [hlt]
  · simp [hst]

/-- C3 amended: configuration errors are not rejected up front.
`process_data` always issues the data-verification queries first (its
trace begins with the tag-existence check); a request whose interval
parses to `0`, or whose range has `start >= end`, then merely produces
no data (`None`) with no chunk query ever issued — a silent no-data
outcome after remote calls, not an up-front configuration rejection (and
a negative interval is not rejected at all). -/
theorem process_data_config_amended (db : TagDB) (tag : String) (s e : Int)
    (frequency : List Char)
    (h : parseFreq frequency = some 0 ∨ e ≤ s) :
    (process_data db tag s e frequency).1 = none ∧
      (∀ c ∈ (process_data db tag s e frequency).2, c.isChunkQuery = false) ∧
      (process_data db tag s e frequency).2.head? =
        some (DbCall.tagCheck tag) := by
  rcases h with h | h
  · have hcalls : processDataInChunksCalls tag s e frequency = [] := by
      simp [processDataInChunksCalls, h]
    have hdata : processDataInChunksData db tag s e frequency = [] := by
      simp [processDataInChunksData, h]
    simp only [process_data, verify_data_exists]
    by_cases hex : tagExists db tag = true
    · simp only [hex, if_pos trivial]
      by_cases hd : hasDataInRange db tag s e = true
      · simp [hd, hdata, hcalls, DbCall.isChunkQuery]
      · simp [Bool.eq_false_iff.mpr hd, hdata, hcalls, DbCall.isChunkQuery]
    · simp [Bool.eq_false_iff.mpr hex, DbCall.isChunkQuery]
  · have hno := hasDataInRange_false db tag h
    simp only [process_data, verify_data_exists]
    by_cases hex : tagExists db tag = true
    · simp [hex, hno, DbCall.isChunkQuery]
    · simp [Bool.eq_false_iff.mpr hex, DbCall.isChunkQuery]

/-- Witness: a zero interval (`00:00:00`) yields no data and no chunk
query, but the tag-existence check has already been issued. -/
theorem process_data_config_amended_witness :
    (parseFreq ("00:00:00".toList) = some 0 ∨ (86400 : Int) ≤ 0) ∧
      ((process_data ⟨[("T", 0, some 1)]⟩ "T" 0 86400
            ("00:00:00".toList)).1 = none ∧
        (∀ c ∈ (process_data ⟨[("T", 0, some 1)]⟩ "T" 0 86400
            ("00:00:00".toList)).2, c.isChunkQuery = false) ∧
        (process_data ⟨[("T", 0, some 1)]⟩ "T" 0 86400
            ("00:00:00".toList)).2.head? = some (DbCall.tagCheck "T")) :=
  ⟨Or.inl (by decide),
    process_data_config_amended ⟨[("T", 0, some 1)]⟩ "T" 0 86400
      ("00:00:00".toList) (Or.inl (by decide))⟩

/-! ## Bucket arithmetic -/

theorem bucketOf_eq_ediv {origin I t : Int} (h : origin ≤ t) (hI : 0 ≤ I) :
    bucketOf origin I t = origin + ((t - origin) / I) * I := by
  unfold bucketOf
  rw [Int.tdiv_eq_ediv (by omega) hI]

theorem bucketOf_le {origin I t : Int} (h : origin ≤ t) (hI : 0 < I) :
    bucketOf origin I t ≤ t := by
  rw [bucketOf_eq_ediv h hI.le, mul_comm]
  have h1 := Int.ediv_add_emod (t - origin) I
  have h2 := Int.emod_nonneg (t - origin) hI.ne'
  linarith

theorem lt_bucketOf_add {origin I t : Int} (h : origin ≤ t) (hI : 0 < I) :
    t < bucketOf origin I t + I := by
  rw [bucketOf_eq_ediv h hI.le, mul_comm]
  have h1 := Int.ediv_add_emod (t - origin) I
  have h2 := Int.emod_lt_of_pos (t - origin) hI
  linarith

theorem dvd_bucketOf_sub (origin I t : Int) :
    I ∣ (bucketOf origin I t - origin) := by
  unfold bucketOf
  have h : origin + (t - origin).tdiv I * I - origin = (t - origin).tdiv I * I := by
    ring
  rw [h]
  exact dvd_mul_left I _

theorem ediv_eq_of_Ico {d q I : Int} (hI : 0 < I) (h1 : I * q ≤ d)
    (h2 : d < I * (q + 1)) : d / I = q := by
  have ha : q ≤ d / I := (Int.le_ediv_iff_mul_le hI).mpr (by linarith [mul_comm q I])
  have hb : d / I < q + 1 :=
    (Int.ediv_lt_iff_lt_mul hI).mpr (by linarith [mul_comm (q + 1) I])
  omega

theorem bucketOf_eq_iff {origin I t b : Int} (hI : 0 < I) (ht : origin ≤ t)
    (hb : I ∣ (b - origin)) :
    bucketOf origin I t = b ↔ b ≤ t ∧ t < b + I := by
  constructor
  · rintro rfl
    exact ⟨bucketOf_le ht hI, lt_bucketOf_add ht hI⟩
  · rintro ⟨h1, h2⟩
    obtain ⟨q, hq⟩ := hb
    rw [bucketOf_eq_ediv ht hI.le]
    have hd : (t - origin) / I = q := by
      apply ediv_eq_of_Ico hI
      · linarith
      · have : I * (q + 1) = I * q + I := by ring
        linarith
    rw [hd]
    linear_combination -hq

theorem bucketOf_shift {s cs I : Int} (t : Int) (hI : 0 < I) (hs : s ≤ cs)
    (hdvd : I ∣ (cs - s)) (ht : cs ≤ t) :
    bucketOf cs I t = bucketOf s I t := by
  obtain ⟨m, hm⟩ := hdvd
  rw [bucketOf_eq_ediv ht hI.le, bucketOf_eq_ediv (le_trans hs ht) hI.le]
  have ht2 : t - s = (t - cs) + m * I := by linarith [mul_comm m I]
  rw [ht2, Int.add_mul_ediv_right _ _ hI.ne']
  linear_combination hm

/-! ## Sample and key lemmas -/

theorem mem_samplesIn {rows : List (Int × Option ℚ)} {lo hi : Int}
    {p : Int × ℚ} :
    p ∈ samplesIn rows lo hi ↔
      (p.1, some p.2) ∈ rows ∧ lo ≤ p.1 ∧ p.1 < hi := by
  simp only [samplesIn, List.mem_filterMap]
  constructor
  · rintro ⟨⟨t, ov⟩, hr, hv⟩
    cases ov with
    | none => simp [sampleVal] at hv
    | some v =>
      simp only [sampleVal] at hv
      split at hv
      · next hcond =>
        injection hv with h
        subst h
        exact ⟨hr, hcond⟩
      · exact absurd hv (by simp)
  · rintro ⟨hmem, h1, h2⟩
    exact ⟨(p.1, some p.2), hmem, by simp [sampleVal, h1, h2]⟩

theorem samplesIn_nil {rows : List (Int × Option ℚ)} {lo hi : Int}
    (h : hi ≤ lo) : samplesIn rows lo hi = [] := by
  rw [samplesIn, List.filterMap_eq_nil_iff]
  rintro ⟨t, ov⟩ _
  cases ov with
  | none => simp [sampleVal]
  | some v =>
    simp only [sampleVal]
    rw [if_neg (by omega)]

theorem mem_sortKeys {l : List Int} {a : Int} : a ∈ sortKeys l ↔ a ∈ l := by
  unfold sortKeys
  rw [(List.perm_insertionSort _ _).mem_iff]
  exact List.mem_dedup

theorem sortKeys_nodup (l : List Int) : (sortKeys l).Nodup :=
  ((List.perm_insertionSort _ _).nodup_iff).mpr (List.nodup_dedup l)

theorem sortKeys_sorted_lt (l : List Int) :
    List.Sorted (· < ·) (sortKeys l) :=
  (List.sorted_insertionSort _ _).lt_of_le (sortKeys_nodup l)

theorem mem_bucketKeys {origin I : Int} {samples : List (Int × ℚ)} {b : Int} :
    b ∈ bucketKeys origin I samples ↔
      ∃ p ∈ samples, bucketOf origin I p.1 = b := by
  unfold bucketKeys
  rw [mem_sortKeys]
  simp [List.mem_map]

/-! ## Per-bucket aggregation (claim C7) -/

/-- C7: every row emitted by the bucketed chunk query is the arithmetic
mean of the values of exactly the retained samples (non-`NULL`, within
the chunk window) whose timestamps fall inside the bucket's interval
`[b, b + I)`, and at least one such sample exists — a bucket with zero
underlying samples is never emitted. -/
theorem chunk_query_buckets_are_means (rows : List (Int × Option ℚ))
    (cs ce I b : Int) (v : ℚ) (hI : 0 < I)
    (hmem : (b, v) ∈ chunkQuery rows cs ce I) :
    ((samplesIn rows cs ce).filter
        (fun p => decide (b ≤ p.1 ∧ p.1 < b + I))) ≠ [] ∧
      v = mean (((samplesIn rows cs ce).filter
        (fun p => decide (b ≤ p.1 ∧ p.1 < b + I))).map Prod.snd) := by
  unfold chunkQuery bucketQuery at hmem
  rw [List.mem_map] at hmem
  obtain ⟨b0, hb0, heq⟩ := hmem
  obtain ⟨h1, h2⟩ := Prod.mk.injEq .. ▸ heq
  subst h1
  obtain ⟨p0, hp0mem, hp0b⟩ := mem_bucketKeys.mp hb0
  have halign : I ∣ (b0 - cs) := hp0b ▸ dvd_bucketOf_sub cs I p0.1
  have hfe : (samplesIn rows cs ce).filter
      (fun p => decide (bucketOf cs I p.1 = b0)) =
      (samplesIn rows cs ce).filter
        (fun p => decide (b0 ≤ p.1 ∧ p.1 < b0 + I)) := by
    apply List.filter_congr
    intro p hp
    rw [decide_eq_decide]
    exact bucketOf_eq_iff hI (mem_samplesIn.mp hp).2.1 halign
  have hp0in : p0 ∈ (samplesIn rows cs ce).filter
      (fun p => decide (b0 ≤ p.1 ∧ p.1 < b0 + I)) := by
    rw [← hfe, List.mem_filter]
    exact ⟨hp0mem, by simpa using hp0b⟩
  refine ⟨List.ne_nil_of_mem hp0in, ?_⟩
  rw [← h2]
  unfold groupVals
  rw [hfe]

/-- Witness: two samples at `t = 0` and `t = 1` inside a ten-second
bucket are emitted once, as their mean `3 = (2 + 4) / 2`. -/
theorem chunk_query_buckets_are_means_witness :
    (0 : Int) < 10 ∧
      (((0 : Int), (3 : ℚ)) ∈
        chunkQuery [(0, some 2), (1, some 4)] 0 10 10) ∧
      (((samplesIn [((0 : Int), some (2 : ℚ)), (1, some 4)] 0 10).filter
          (fun p => decide ((0 : Int) ≤ p.1 ∧ p.1 < 0 + 10))) ≠ [] ∧
        (3 : ℚ) = mean (((samplesIn [((0 : Int), some (2 : ℚ)),
            (1, some 4)] 0 10).filter
          (fun p => decide ((0 : Int) ≤ p.1 ∧ p.1 < 0 + 10))).map Prod.snd)) := by
  have hm : (((0 : Int), (3 : ℚ)) ∈
      chunkQuery [(0, some 2), (1, some 4)] 0 10 10) := by
    norm_num [chunkQuery, bucketQuery, bucketKeys, samplesIn, sampleVal,
      sortKeys, groupVals, mean, bucketOf, Int.tdiv_eq_ediv,
      List.filter_cons, List.filterMap_cons, List.insertionSort,
      List.orderedInsert]
  exact ⟨by norm_num, hm,
    chunk_query_buckets_are_means [(0, some 2), (1, some 4)] 0 10 10 0 3
      (by norm_num) hm⟩

/-! ## Chunk-seam alignment under a dividing interval (claim C1, amended) -/

theorem sorted_lt_ext {l1 l2 : List Int} (h1 : List.Sorted (· < ·) l1)
    (h2 : List.Sorted (· < ·) l2) (hm : ∀ a, a ∈ l1 ↔ a ∈ l2) : l1 = l2 := by
  have hp : l1.Perm l2 := by
    apply List.perm_of_nodup_nodup_toFinset_eq h1.nodup h2.nodup
    ext a
    simp [List.mem_toFinset, hm a]
  exact List.eq_of_perm_of_sorted hp h1.le_of_lt h2.le_of_lt

theorem filterMap_ext_mem {α β : Type} {f g : α → Option β} {l : List α}
    (h : ∀ a ∈ l, f a = g a) : l.filterMap f = l.filterMap g := by
  induction l with
  | nil => rfl
  | cons x xs ih =>
    rw [List.filterMap_cons, List.filterMap_cons, h x (List.mem_cons_self x xs),
      ih (fun a ha => h a (List.mem_cons_of_mem x ha))]

/-- Two window restrictions select the same rows of a bucket `b` when the
windows agree on the bucket's interval. -/
theorem samplesIn_filter_bucket_eq {rows : List (Int × Option ℚ)}
    {origin I b lo hi lo2 hi2 : Int} (hI : 0 < I) (horig : origin ≤ lo)
    (horig2 : origin ≤ lo2) (halign : I ∣ (b - origin))
    (hcond : ∀ t, b ≤ t → t < b + I → ((lo ≤ t ∧ t < hi) ↔ (lo2 ≤ t ∧ t < hi2))) :
    (samplesIn rows lo hi).filter
        (fun p => decide (bucketOf origin I p.1 = b)) =
      (samplesIn rows lo2 hi2).filter
        (fun p => decide (bucketOf origin I p.1 = b)) := by
  rw [samplesIn, samplesIn, List.filter_filterMap, List.filter_filterMap]
  apply filterMap_ext_mem
  rintro ⟨t, ov⟩ _
  cases ov with
  | none => simp [sampleVal]
  | some v =>
    simp only [sampleVal]
    by_cases hbt : bucketOf origin I t = b
    · by_cases h1 : lo ≤ t ∧ t < hi
      · have ht : origin ≤ t := le_trans horig h1.1
        have hIco := (bucketOf_eq_iff hI ht halign).mp hbt
        have h2 : lo2 ≤ t ∧ t < hi2 := (hcond t hIco.1 hIco.2).mp h1
        simp [h1.1, h1.2, h2.1, h2.2, Option.filter, hbt]
      · by_cases h2 : lo2 ≤ t ∧ t < hi2
        · have ht : origin ≤ t := le_trans horig2 h2.1
          have hIco := (bucketOf_eq_iff hI ht halign).mp hbt
          exact absurd ((hcond t hIco.1 hIco.2).mpr h2) h1
        · simp only [if_neg h1, if_neg h2]
    · by_cases h1 : lo ≤ t ∧ t < hi <;> by_cases h2 : lo2 ≤ t ∧ t < hi2 <;>
        simp [h1, h2, Option.filter, hbt]

/-- Keys of a window below `mid` are below `mid`. -/
theorem bucketKeys_lt_limit {rows : List (Int × Option ℚ)}
    {origin I lo mid a : Int} (hI : 0 < I) (horig : origin ≤ lo)
    (ha : a ∈ bucketKeys origin I (samplesIn rows lo mid)) : a < mid := by
  obtain ⟨p, hp, hpb⟩ := mem_bucketKeys.mp ha
  obtain ⟨-, hplo, hpmid⟩ := mem_samplesIn.mp hp
  have h1 : bucketOf origin I p.1 ≤ p.1 := bucketOf_le (le_trans horig hplo) hI
  omega

/-- Keys of a window at or above an aligned `mid` are at or above
`mid`. -/
theorem limit_le_bucketKeys {rows : List (Int × Option ℚ)}
    {origin I mid hi b : Int} (hI : 0 < I) (horig : origin ≤ mid)
    (halignmid : I ∣ (mid - origin))
    (hb : b ∈ bucketKeys origin I (samplesIn rows mid hi)) : mid ≤ b := by
  obtain ⟨p, hp, hpb⟩ := mem_bucketKeys.mp hb
  obtain ⟨-, hpmid, hphi⟩ := mem_samplesIn.mp hp
  have ht : origin ≤ p.1 := le_trans horig hpmid
  have halignb : I ∣ (b - origin) := hpb ▸ dvd_bucketOf_sub origin I p.1
  by_contra hlt
  have hd : I ∣ (mid - b) := by
    have : mid - b = (mid - origin) - (b - origin) := by ring
    rw [this]
    exact dvd_sub halignmid halignb
  have hle : I ≤ mid - b := Int.le_of_dvd (by omega) hd
  have h2 : p.1 < bucketOf origin I p.1 + I := lt_bucketOf_add ht hI
  rw [hpb] at h2
  omega

/-- Splitting a bucketed query at an origin-aligned instant `mid` within
the window changes nothing: the two halves concatenate to the whole. -/
theorem bucketQuery_split {rows : List (Int × Option ℚ)}
    {origin lo mid hi I : Int} (hI : 0 < I) (horig : origin ≤ lo)
    (hlm : lo ≤ mid) (hmh : mid ≤ hi) (halignmid : I ∣ (mid - origin)) :
    bucketQuery rows origin lo hi I =
      bucketQuery rows origin lo mid I ++ bucketQuery rows origin mid hi I := by
  have hkeys : bucketKeys origin I (samplesIn rows lo hi) =
      bucketKeys origin I (samplesIn rows lo mid) ++
        bucketKeys origin I (samplesIn rows mid hi) := by
    apply sorted_lt_ext (sortKeys_sorted_lt _)
    · show List.Pairwise _ _
      rw [List.pairwise_append]
      refine ⟨sortKeys_sorted_lt _, sortKeys_sorted_lt _, ?_⟩
      intro a ha b hb
      have h1 := bucketKeys_lt_limit hI horig ha
      have h2 := limit_le_bucketKeys hI (le_trans horig hlm) halignmid hb
      omega
    · intro a
      rw [mem_sortKeys, List.mem_map, List.mem_append, mem_bucketKeys,
        mem_bucketKeys]
      constructor
      · rintro ⟨p, hp, hpb⟩
        obtain ⟨hrow, hplo, hphi⟩ := mem_samplesIn.mp hp
        by_cases hmid : p.1 < mid
        · exact Or.inl ⟨p, mem_samplesIn.mpr ⟨hrow, hplo, hmid⟩, hpb⟩
        · exact Or.inr ⟨p, mem_samplesIn.mpr ⟨hrow, by omega, hphi⟩, hpb⟩
      · rintro (⟨p, hp, hpb⟩ | ⟨p, hp, hpb⟩)
        · obtain ⟨hrow, hplo, hpmid⟩ := mem_samplesIn.mp hp
          exact ⟨p, mem_samplesIn.mpr ⟨hrow, hplo, by omega⟩, hpb⟩
        · obtain ⟨hrow, hpmid, hphi⟩ := mem_samplesIn.mp hp
          exact ⟨p, mem_samplesIn.mpr ⟨hrow, by omega, hphi⟩, hpb⟩
  unfold bucketQuery
  rw [hkeys, List.map_append]
  congr 1
  · apply List.map_congr_left
    intro b hb
    have hblt : b < mid := bucketKeys_lt_limit hI horig hb
    obtain ⟨p0, hp0, hp0b⟩ := mem_bucketKeys.mp hb
    have halignb : I ∣ (b - origin) := hp0b ▸ dvd_bucketOf_sub origin I p0.1
    have hd : I ∣ (mid - b) := by
      have h : mid - b = (mid - origin) - (b - origin) := by ring
      rw [h]
      exact dvd_sub halignmid halignb
    have hbIle : b + I ≤ mid := by
      have := Int.le_of_dvd (by omega) hd
      omega
    have hgroup : (samplesIn rows lo hi).filter
        (fun p => decide (bucketOf origin I p.1 = b)) =
        (samplesIn rows lo mid).filter
          (fun p => decide (bucketOf origin I p.1 = b)) := by
      apply samplesIn_filter_bucket_eq hI horig horig halignb
      intro t h1 h2
      omega
    simp only [groupVals, hgroup]
  · apply List.map_congr_left
    intro b hb
    have hble : mid ≤ b := limit_le_bucketKeys hI (le_trans horig hlm) halignmid hb
    obtain ⟨p0, hp0, hp0b⟩ := mem_bucketKeys.mp hb
    have halignb : I ∣ (b - origin) := hp0b ▸ dvd_bucketOf_sub origin I p0.1
    have hgroup : (samplesIn rows lo hi).filter
        (fun p => decide (bucketOf origin I p.1 = b)) =
        (samplesIn rows mid hi).filter
          (fun p => decide (bucketOf origin I p.1 = b)) := by
      apply samplesIn_filter_bucket_eq hI horig (le_trans horig hlm) halignb
      intro t h1 h2
      omega
    simp only [groupVals, hgroup]

/-- Replacing a chunk-start origin by the request start changes nothing
when the chunk start is aligned to the request start. -/
theorem bucketQuery_origin_shift {rows : List (Int × Option ℚ)}
    {s cs ce I : Int} (hI : 0 < I) (hs : s ≤ cs) (hdvd : I ∣ (cs - s)) :
    bucketQuery rows cs cs ce I = bucketQuery rows s cs ce I := by
  unfold bucketQuery
  have hkeys : bucketKeys cs I (samplesIn rows cs ce) =
      bucketKeys s I (samplesIn rows cs ce) := by
    unfold bucketKeys
    congr 1
    apply List.map_congr_left
    intro p hp
    exact bucketOf_shift p.1 hI hs hdvd (mem_samplesIn.mp hp).2.1
  rw [hkeys]
  apply List.map_congr_left
  intro b hb
  have hgroup : groupVals cs I b (samplesIn rows cs ce) =
      groupVals s I b (samplesIn rows cs ce) := by
    unfold groupVals
    congr 1
    apply List.filter_congr
    intro p hp
    rw [decide_eq_decide,
      bucketOf_shift p.1 hI hs hdvd (mem_samplesIn.mp hp).2.1]
  rw [hgroup]

theorem bucketQuery_empty {rows : List (Int × Option ℚ)}
    {origin lo hi I : Int} (h : hi ≤ lo) :
    bucketQuery rows origin lo hi I = [] := by
  simp [bucketQuery, samplesIn_nil h, bucketKeys, sortKeys, List.dedup_nil,
    List.insertionSort]

theorem processChunks_eq_onePass_aux (rows : List (Int × Option ℚ))
    {s I : Int} (hI : 0 < I) (hdvd : I ∣ chunkSeconds) :
    ∀ fuel : Nat, ∀ cur e : Int, (e - cur).toNat ≤ fuel → s ≤ cur →
      I ∣ (cur - s) →
      ((chunkWindows cur e).map (fun w => chunkQuery rows w.1 w.2 I)).flatten =
        bucketQuery rows s cur e I := by
  intro fuel
  induction fuel with
  | zero =>
    intro cur e hfuel hs hcur
    rw [chunkWindows, dif_neg (by omega),
      bucketQuery_empty (show e ≤ cur by omega)]
    simp
  | succ fuel ih =>
    intro cur e hfuel hs hcur
    by_cases hlt : cur < e
    · rw [chunkWindows, dif_pos hlt]
      rw [List.map_cons, List.flatten_cons]
      by_cases hce : cur + chunkSeconds ≤ e
      · have hmin : min (cur + chunkSeconds) e = cur + chunkSeconds :=
          min_eq_left hce
        rw [hmin]
        have hchunkpos : (0 : Int) < chunkSeconds := by
          rw [chunkSeconds]; omega
        have htail := ih (cur + chunkSeconds) e (by omega) (by omega)
          (by
            have h : cur + chunkSeconds - s = (cur - s) + chunkSeconds := by
              ring
            rw [h]
            exact dvd_add hcur hdvd)
        rw [htail]
        rw [show chunkQuery rows cur (cur + chunkSeconds) I =
            bucketQuery rows s cur (cur + chunkSeconds) I from
          bucketQuery_origin_shift hI hs hcur]
        exact (bucketQuery_split hI hs (by omega) hce
          (by
            have h : cur + chunkSeconds - s = (cur - s) + chunkSeconds := by
              ring
            rw [h]
            exact dvd_add hcur hdvd)).symm
      · have hmin : min (cur + chunkSeconds) e = e := min_eq_right (by omega)
        rw [hmin]
        rw [chunkWindows, dif_neg (by omega)]
        simp only [List.map_nil, List.flatten_nil, List.append_nil]
        exact bucketQuery_origin_shift hI hs hcur
    · rw [chunkWindows, dif_neg hlt,
        bucketQuery_empty (show e ≤ cur by omega)]
      simp

/-- C1 amended: when the bucket interval `I` divides the one-day chunk
width, the buckets emitted by `process_data_in_chunks` over the whole
range coincide exactly with bucketing the range in one pass with a
single origin fixed at the overall request start — no bucket duplicated
or missing at any chunk seam — and then every emitted bucket timestamp
has the form `start + k * I`.  (The counterexample
`chunk_origin_misaligned` shows this fails for intervals that do not
divide the chunk width, because the query's origin is the chunk start.) -/
theorem process_data_in_chunks_aligned (rows : List (Int × Option ℚ))
    (s e I : Int) (hI : 0 < I) (hdvd : I ∣ chunkSeconds) :
    processDataInChunks rows s e I = bucketQuery rows s s e I ∧
      ∀ b ∈ (processDataInChunks rows s e I).map Prod.fst,
        ∃ k : Int, b = s + k * I := by
  have hmain : processDataInChunks rows s e I = bucketQuery rows s s e I :=
    processChunks_eq_onePass_aux rows hI hdvd (e - s).toNat s e le_rfl
      le_rfl (by simp)
  refine ⟨hmain, ?_⟩
  rw [hmain]
  intro b hb
  have hb2 : b ∈ bucketKeys s I (samplesIn rows s e) := by
    simpa [bucketQuery, List.map_map, Function.comp] using hb
  obtain ⟨p, _, hpb⟩ := mem_bucketKeys.mp hb2
  have hdvdb : I ∣ (b - s) := hpb ▸ dvd_bucketOf_sub s I p.1
  obtain ⟨k, hk⟩ := hdvdb
  exact ⟨k, by linear_combination hk⟩

/-- Witness: with a six-hour interval (which divides one day) the sample
at the start of day two lands in the same bucket `86400` under both the
chunked walk and one-pass request-start bucketing. -/
theorem process_data_in_chunks_aligned_witness :
    (0 : Int) < 21600 ∧ (21600 : Int) ∣ chunkSeconds ∧
      (processDataInChunks [((86400 : Int), some (1 : ℚ))] 0 172800 21600 =
          bucketQuery [((86400 : Int), some (1 : ℚ))] 0 0 172800 21600 ∧
        ∀ b ∈ (processDataInChunks [((86400 : Int), some (1 : ℚ))] 0 172800
            21600).map Prod.fst, ∃ k : Int, b = 0 + k * 21600) :=
  ⟨by norm_num, by decide,
    process_data_in_chunks_aligned [((86400 : Int), some (1 : ℚ))] 0 172800
      21600 (by norm_num) (by decide)⟩

/-! ## Outer-join merge (claim C5) -/

theorem outerJoinRows_fst (acc : List (Int × List (Option ℚ))) (n : Nat)
    (df : List (Int × ℚ)) :
    (outerJoinRows acc n df).map Prod.fst =
      acc.map Prod.fst ++
        ((df.filter (fun p => decide (p.1 ∉ acc.map Prod.fst))).map
          Prod.fst) := by
  unfold outerJoinRows
  rw [List.map_append, List.map_map, List.map_map]
  congr 1

theorem outerJoinRows_fst_mem {acc : List (Int × List (Option ℚ))} {n : Nat}
    {df : List (Int × ℚ)} {ts : Int} :
    ts ∈ (outerJoinRows acc n df).map Prod.fst ↔
      ts ∈ acc.map Prod.fst ∨ ts ∈ df.map Prod.fst := by
  rw [outerJoinRows_fst, List.mem_append]
  constructor
  · rintro (h | h)
    · exact Or.inl h
    · right
      obtain ⟨p, hp, rfl⟩ := List.mem_map.mp h
      exact List.mem_map.mpr ⟨p, (List.mem_filter.mp hp).1, rfl⟩
  · rintro (h | h)
    · exact Or.inl h
    · by_cases hin : ts ∈ acc.map Prod.fst
      · exact Or.inl hin
      · right
        obtain ⟨p, hp, rfl⟩ := List.mem_map.mp h
        exact List.mem_map.mpr ⟨p, List.mem_filter.mpr ⟨hp, by simpa using hin⟩, rfl⟩

theorem outerJoinRows_fst_nodup {acc : List (Int × List (Option ℚ))} {n : Nat}
    {df : List (Int × ℚ)} (hacc : (acc.map Prod.fst).Nodup)
    (hdf : (df.map Prod.fst).Nodup) :
    ((outerJoinRows acc n df).map Prod.fst).Nodup := by
  rw [outerJoinRows_fst]
  refine List.Nodup.append hacc (hdf.sublist ((List.filter_sublist df).map _)) ?_
  intro a ha hb
  obtain ⟨p, hp, rfl⟩ := List.mem_map.mp hb
  have := (List.mem_filter.mp hp).2
  simp only [decide_eq_true_eq] at this
  exact this ha

theorem joinAll_fst_mem :
    ∀ (dfs : List (List (Int × ℚ))) (acc : List (Int × List (Option ℚ)))
      (n : Nat) (ts : Int),
      ts ∈ (joinAll acc n dfs).map Prod.fst ↔
        ts ∈ acc.map Prod.fst ∨ ∃ df ∈ dfs, ts ∈ df.map Prod.fst := by
  intro dfs
  induction dfs with
  | nil => simp [joinAll]
  | cons df rest ih =>
    intro acc n ts
    rw [joinAll, ih, outerJoinRows_fst_mem]
    simp only [List.mem_cons]
    constructor
    · rintro ((h | h) | ⟨d, hd, h⟩)
      · exact Or.inl h
      · exact Or.inr ⟨df, Or.inl rfl, h⟩
      · exact Or.inr ⟨d, Or.inr hd, h⟩
    · rintro (h | ⟨d, rfl | hd, h⟩)
      · exact Or.inl (Or.inl h)
      · exact Or.inl (Or.inr h)
      · exact Or.inr ⟨d, hd, h⟩

theorem joinAll_fst_nodup :
    ∀ (dfs : List (List (Int × ℚ))) (acc : List (Int × List (Option ℚ)))
      (n : Nat), (acc.map Prod.fst).Nodup →
      (∀ df ∈ dfs, (df.map Prod.fst).Nodup) →
      ((joinAll acc n dfs).map Prod.fst).Nodup := by
  intro dfs
  induction dfs with
  | nil => intro acc n h _; simpa [joinAll] using h
  | cons df rest ih =>
    intro acc n hacc hall
    rw [joinAll]
    exact ih _ _
      (outerJoinRows_fst_nodup hacc (hall df (List.mem_cons_self df rest)))
      (fun d hd => hall d (List.mem_cons_of_mem df hd))

theorem ffillRows_fst :
    ∀ (rows : List (Int × List (Option ℚ))) (carry : List (Option ℚ)),
      (ffillRows carry rows).map Prod.fst = rows.map Prod.fst := by
  intro rows
  induction rows with
  | nil => intro carry; rfl
  | cons r rest ih =>
    intro carry
    simp only [ffillRows, List.map_cons, ih]

theorem bfillRows_fst (n : Nat) (rows : List (Int × List (Option ℚ))) :
    (bfillRows n rows).map Prod.fst = rows.map Prod.fst := by
  unfold bfillRows
  rw [List.map_reverse, ffillRows_fst, List.map_reverse, List.reverse_reverse]

theorem sortRows_fst_sorted (rows : List (Int × List (Option ℚ))) :
    List.Sorted (· ≤ ·) ((sortRows rows).map Prod.fst) :=
  List.Pairwise.map Prod.fst (fun _ _ h => h)
    (List.sorted_insertionSort _ rows)

/-- C5: `merge_dataframes` outer-joins all the per-tag series: the merged
table's row timestamps are strictly increasing, and a timestamp appears
in the table exactly when at least one input series has it — a row
missing from some series is still present, never dropped. -/
theorem merge_dataframes_outer_union (dfs : List (String × List (Int × ℚ)))
    (hne : dfs ≠ [])
    (hnd : ∀ p ∈ dfs, (p.2.map Prod.fst).Nodup) :
    List.Sorted (· < ·) ((merge_dataframes dfs).map Prod.fst) ∧
      ∀ ts : Int, ts ∈ (merge_dataframes dfs).map Prod.fst ↔
        ∃ p ∈ dfs, ts ∈ p.2.map Prod.fst := by
  obtain ⟨d, rest, rfl⟩ := List.exists_cons_of_ne_nil hne
  have hfst : (merge_dataframes (d :: rest)).map Prod.fst =
      (mergeAligned (d :: rest)).map Prod.fst := by
    unfold merge_dataframes
    rw [bfillRows_fst, ffillRows_fst]
  have hinit_fst : ((d.2.map (fun p => (p.1, [some p.2]))).map Prod.fst) =
      d.2.map Prod.fst := by
    rw [List.map_map]
    rfl
  have haligned : mergeAligned (d :: rest) =
      sortRows (joinAll (d.2.map (fun p => (p.1, [some p.2]))) 1
        (rest.map (fun q => q.2))) := rfl
  have hjoin_nodup : ((joinAll (d.2.map (fun p => (p.1, [some p.2]))) 1
      (rest.map (fun q => q.2))).map Prod.fst).Nodup := by
    apply joinAll_fst_nodup
    · rw [hinit_fst]
      exact hnd d (List.mem_cons_self d rest)
    · intro df hdf
      obtain ⟨q, hq, rfl⟩ := List.mem_map.mp hdf
      exact hnd q (List.mem_cons_of_mem d hq)
  have hperm : ((sortRows (joinAll (d.2.map (fun p => (p.1, [some p.2]))) 1
      (rest.map (fun q => q.2)))).map Prod.fst).Perm
      ((joinAll (d.2.map (fun p => (p.1, [some p.2]))) 1
        (rest.map (fun q => q.2))).map Prod.fst) :=
    (List.perm_insertionSort _ _).map _
  have hnodup2 := hperm.nodup_iff.mpr hjoin_nodup
  constructor
  · rw [hfst, haligned]
    exact (sortRows_fst_sorted _).lt_of_le hnodup2
  · intro ts
    rw [hfst, haligned, hperm.mem_iff, joinAll_fst_mem, hinit_fst]
    constructor
    · rintro (h | ⟨df, hdf, h⟩)
      · exact ⟨d, List.mem_cons_self d rest, h⟩
      · obtain ⟨q, hq, rfl⟩ := List.mem_map.mp hdf
        exact ⟨q, List.mem_cons_of_mem d hq, h⟩
    · rintro ⟨p, hp, h⟩
      rcases List.mem_cons.mp hp with rfl | hp2
      · exact Or.inl h
      · exact Or.inr ⟨p.2, List.mem_map.mpr ⟨p, hp2, rfl⟩, h⟩

/-- Witness: two overlapping series merge into the sorted union of their
timestamps. -/
theorem merge_dataframes_outer_union_witness :
    ([("A", [((0 : Int), (1 : ℚ)), (60, 2)]), ("B", [(60, 3), (120, 4)])] ≠
        ([] : List (String × List (Int × ℚ)))) ∧
      (∀ p ∈ [("A", [((0 : Int), (1 : ℚ)), (60, 2)]),
          ("B", [(60, 3), (120, 4)])], (p.2.map Prod.fst).Nodup) ∧
      (List.Sorted (· < ·)
          ((merge_dataframes [("A", [((0 : Int), (1 : ℚ)), (60, 2)]),
            ("B", [(60, 3), (120, 4)])]).map Prod.fst) ∧
        ∀ ts : Int,
          ts ∈ (merge_dataframes [("A", [((0 : Int), (1 : ℚ)), (60, 2)]),
              ("B", [(60, 3), (120, 4)])]).map Prod.fst ↔
            ∃ p ∈ [("A", [((0 : Int), (1 : ℚ)), (60, 2)]),
              ("B", [(60, 3), (120, 4)])], ts ∈ p.2.map Prod.fst) :=
  ⟨by simp, by decide,
    merge_dataframes_outer_union
      [("A", [((0 : Int), (1 : ℚ)), (60, 2)]), ("B", [(60, 3), (120, 4)])]
      (by simp) (by decide)⟩

/-! ## Gap fill (claim C6) -/

theorem ffillCol_length (carry : Option ℚ) (col : List (Option ℚ)) :
    (ffillCol carry col).length = col.length := by
  induction col generalizing carry with
  | nil => rfl
  | cons v rest ih => simp [ffillCol, ih]

theorem nearestEarlier_cons_zero (v : Option ℚ) (rest : List (Option ℚ)) :
    nearestEarlier (v :: rest) 0 = v := by
  cases v <;> simp [nearestEarlier, List.findSome?_cons]

theorem nearestEarlier_cons_succ (v : Option ℚ) (rest : List (Option ℚ))
    (i : Nat) :
    nearestEarlier (v :: rest) (i + 1) = (nearestEarlier rest i).or v := by
  unfold nearestEarlier
  rw [List.take_succ_cons, List.reverse_cons, List.findSome?_append]
  congr 1
  cases v <;> simp

theorem nearestLater_cons_succ (v : Option ℚ) (rest : List (Option ℚ))
    (i : Nat) : nearestLater (v :: rest) (i + 1) = nearestLater rest i := rfl

theorem ffillCol_getD (col : List (Option ℚ)) :
    ∀ (carry : Option ℚ) (i : Nat), i < col.length →
      (ffillCol carry col).getD i none = (nearestEarlier col i).or carry := by
  induction col with
  | nil => intro carry i hi; simp at hi
  | cons v rest ih =>
    intro carry i hi
    cases i with
    | zero =>
      rw [nearestEarlier_cons_zero]
      simp [ffillCol]
    | succ i =>
      rw [nearestEarlier_cons_succ]
      simp only [ffillCol, List.getD_cons_succ]
      rw [ih (v.or carry) i (by simpa using hi)]
      exact Option.or_assoc.symm

theorem nearestLater_zero_or (col : List (Option ℚ)) :
    (nearestEarlier col 0).or (nearestLater col 0) = nearestLater col 0 := by
  cases col with
  | nil => simp [nearestEarlier, nearestLater]
  | cons v rest =>
    rw [nearestEarlier_cons_zero]
    cases v with
    | none => simp
    | some a => simp [nearestLater, List.findSome?_cons]

theorem nearestLater_ffillCol (col : List (Option ℚ)) :
    ∀ (carry : Option ℚ) (i : Nat), i < col.length →
      nearestLater (ffillCol carry col) i =
        ((nearestEarlier col i).or carry).or (nearestLater col i) := by
  induction col with
  | nil => intro carry i hi; simp at hi
  | cons v rest ih =>
    intro carry i hi
    cases i with
    | zero =>
      rw [nearestEarlier_cons_zero]
      cases v with
      | some a => simp [ffillCol, nearestLater, List.findSome?_cons]
      | none =>
        cases carry with
        | some c => simp [ffillCol, nearestLater, List.findSome?_cons]
        | none =>
          cases rest with
          | nil => simp [ffillCol, nearestLater]
          | cons r rs =>
            have h0 := ih none 0 (by simp)
            have hz := nearestLater_zero_or (r :: rs)
            simp only [ffillCol, Option.none_or, Option.or_none] at h0 ⊢
            have hstep : ∀ X : List (Option ℚ),
                nearestLater (none :: X) 0 = nearestLater X 0 := by
              intro X
              simp [nearestLater, List.findSome?_cons]
            rw [hstep, hstep, h0, hz]
    | succ i =>
      have hlen : i < rest.length := by simpa using hi
      show nearestLater ((v.or carry) :: ffillCol (v.or carry) rest) (i + 1) = _
      rw [nearestLater_cons_succ, ih (v.or carry) i hlen,
        nearestEarlier_cons_succ, nearestLater_cons_succ]
      congr 1
      exact Option.or_assoc.symm

theorem reverse_drop_eq (l : List (Option ℚ)) :
    ∀ i : Nat, (l.drop i).reverse = l.reverse.take (l.length - i) := by
  induction l with
  | nil => intro i; simp
  | cons x xs ih =>
    intro i
    cases i with
    | zero => simp
    | succ i =>
      rw [List.drop_succ_cons, ih i, List.reverse_cons]
      have hlen : (x :: xs).length - (i + 1) = xs.length - i := by
        simp only [List.length_cons]
        omega
      rw [hlen, List.take_append_of_le_length (by simp)]

theorem bfillCol_getD (l : List (Option ℚ)) (i : Nat) (hi : i < l.length) :
    ((ffillCol none l.reverse).reverse).getD i none = nearestLater l i := by
  have hlen : (ffillCol none l.reverse).length = l.length := by
    rw [ffillCol_length, List.length_reverse]
  rw [List.getD_eq_getElem?_getD, List.getElem?_reverse (by omega),
    ← List.getD_eq_getElem?_getD,
    ffillCol_getD l.reverse none _ (by simp; omega), Option.or_none]
  unfold nearestEarlier nearestLater
  have h1 : (ffillCol none l.reverse).length - 1 - i + 1 = l.length - i := by
    rw [hlen]
    omega
  rw [h1, ← reverse_drop_eq l i, List.reverse_reverse]

theorem zipWith_or_getD :
    ∀ (a b : List (Option ℚ)) (j : Nat), a.length = b.length →
      (List.zipWith (fun v c => v.or c) a b).getD j none =
        (a.getD j none).or (b.getD j none) := by
  intro a
  induction a with
  | nil =>
    intro b j h
    cases b with
    | nil => simp
    | cons y ys => simp at h
  | cons x xs ih =>
    intro b j h
    cases b with
    | nil => simp at h
    | cons y ys =>
      cases j with
      | zero => simp [List.zipWith]
      | succ j =>
        simp only [List.zipWith, List.getD_cons_succ]
        exact ih ys j (by simpa using h)

theorem colAt_cons (r : Int × List (Option ℚ))
    (rest : List (Int × List (Option ℚ))) (j : Nat) :
    colAt (r :: rest) j = r.2.getD j none :: colAt rest j := rfl

theorem colAt_reverse (rows : List (Int × List (Option ℚ))) (j : Nat) :
    colAt rows.reverse j = (colAt rows j).reverse :=
  List.map_reverse _ _

theorem colAt_length (rows : List (Int × List (Option ℚ))) (j : Nat) :
    (colAt rows j).length = rows.length :=
  List.length_map _ _

theorem colAt_ffillRows :
    ∀ (rows : List (Int × List (Option ℚ))) (carry : List (Option ℚ))
      (j : Nat), (∀ r ∈ rows, r.2.length = carry.length) →
      colAt (ffillRows carry rows) j =
        ffillCol (carry.getD j none) (colAt rows j) := by
  intro rows
  induction rows with
  | nil => intro carry j _; rfl
  | cons r rest ih =>
    intro carry j h
    have hr : r.2.length = carry.length := h r (List.mem_cons_self r rest)
    have hfl : (List.zipWith (fun v c => v.or c) r.2 carry).length =
        carry.length := by
      rw [List.length_zipWith, hr, Nat.min_self]
    simp only [ffillRows, colAt_cons, ffillCol]
    rw [zipWith_or_getD r.2 carry j hr,
      ih (List.zipWith (fun v c => v.or c) r.2 carry) j
        (fun r2 hr2 => by rw [hfl]; exact h r2 (List.mem_cons_of_mem r hr2)),
      zipWith_or_getD r.2 carry j hr]
    rfl

theorem ffillRows_width :
    ∀ (rows : List (Int × List (Option ℚ))) (carry : List (Option ℚ)),
      (∀ r ∈ rows, r.2.length = carry.length) →
      ∀ r ∈ ffillRows carry rows, r.2.length = carry.length := by
  intro rows
  induction rows with
  | nil => intro carry _ r hr; simp [ffillRows] at hr
  | cons r0 rest ih =>
    intro carry h r hr
    have hr0 : r0.2.length = carry.length := h r0 (List.mem_cons_self r0 rest)
    have hfl : (List.zipWith (fun v c => v.or c) r0.2 carry).length =
        carry.length := by
      rw [List.length_zipWith, hr0, Nat.min_self]
    simp only [ffillRows] at hr
    rcases List.mem_cons.mp hr with rfl | hr2
    · exact hfl
    · have := ih (List.zipWith (fun v c => v.or c) r0.2 carry)
        (fun r2 h2 => by rw [hfl]; exact h r2 (List.mem_cons_of_mem r0 h2))
        r hr2
      rw [this, hfl]

theorem outerJoinRows_width {acc : List (Int × List (Option ℚ))} {n : Nat}
    {df : List (Int × ℚ)} (h : ∀ r ∈ acc, r.2.length = n) :
    ∀ r ∈ outerJoinRows acc n df, r.2.length = n + 1 := by
  intro r hr
  rcases List.mem_append.mp hr with h1 | h1
  · obtain ⟨r0, hr0, rfl⟩ := List.mem_map.mp h1
    simp [h r0 hr0]
  · obtain ⟨p, _, rfl⟩ := List.mem_map.mp h1
    simp

theorem joinAll_width :
    ∀ (dfs : List (List (Int × ℚ))) (acc : List (Int × List (Option ℚ)))
      (n : Nat), (∀ r ∈ acc, r.2.length = n) →
      ∀ r ∈ joinAll acc n dfs, r.2.length = n + dfs.length := by
  intro dfs
  induction dfs with
  | nil => intro acc n h; simpa [joinAll] using h
  | cons df rest ih =>
    intro acc n h r hr
    rw [joinAll] at hr
    have hres := ih _ _ (outerJoinRows_width h) r hr
    rw [hres]
    simp only [List.length_cons]
    omega

theorem mergeAligned_width (dfs : List (String × List (Int × ℚ))) :
    ∀ r ∈ mergeAligned dfs, r.2.length = dfs.length := by
  cases dfs with
  | nil => intro r hr; simp [mergeAligned] at hr
  | cons d rest =>
    intro r hr
    unfold mergeAligned sortRows at hr
    have hr2 := (List.perm_insertionSort _ _).mem_iff.mp hr
    have hw := joinAll_width (rest.map fun q => q.2) _ 1
      (fun r0 hr0 => by
        obtain ⟨p, _, rfl⟩ := List.mem_map.mp hr0
        rfl)
      r hr2
    rw [hw]
    simp only [List.length_map, List.length_cons]
    omega

/-- C6: in `merge_dataframes`, after forward-fill then backward-fill,
each cell of a column holds the nearest earlier value of that column when
one exists, otherwise the nearest later value; consequently every cell of
a column is populated whenever the column holds at least one real value
anywhere in the range. -/
theorem merge_dataframes_gap_fill (dfs : List (String × List (Int × ℚ)))
    (j i : Nat) (hj : j < dfs.length)
    (hi : i < (mergeAligned dfs).length) :
    (colAt (merge_dataframes dfs) j).getD i none =
      (nearestEarlier (colAt (mergeAligned dfs) j) i).or
        (nearestLater (colAt (mergeAligned dfs) j) i) ∧
      ((∃ v ∈ colAt (mergeAligned dfs) j, v ≠ none) →
        (colAt (merge_dataframes dfs) j).getD i none ≠ none) := by
  have hw : ∀ r ∈ mergeAligned dfs, r.2.length = dfs.length :=
    mergeAligned_width dfs
  have hcol1 : colAt (ffillRows (List.replicate dfs.length none)
      (mergeAligned dfs)) j = ffillCol none (colAt (mergeAligned dfs) j) := by
    rw [colAt_ffillRows (mergeAligned dfs) _ j (by simpa using hw)]
    congr 1
    simp
  have hfinal : colAt (merge_dataframes dfs) j =
      (ffillCol none
        (ffillCol none (colAt (mergeAligned dfs) j)).reverse).reverse := by
    unfold merge_dataframes bfillRows
    rw [colAt_reverse, colAt_ffillRows _ _ j (fun r hr => by
      rw [List.length_replicate]
      exact ffillRows_width (mergeAligned dfs) _ (by simpa using hw) r
        ((List.mem_reverse).mp hr) |>.trans (List.length_replicate _ _)),
      colAt_reverse, hcol1]
    congr 1
    simp
  have hlen1 : (ffillCol none (colAt (mergeAligned dfs) j)).length =
      (colAt (mergeAligned dfs) j).length :=
    ffillCol_length none _
  have hlen2 : (colAt (mergeAligned dfs) j).length =
      (mergeAligned dfs).length := colAt_length _ _
  have hmain : (colAt (merge_dataframes dfs) j).getD i none =
      (nearestEarlier (colAt (mergeAligned dfs) j) i).or
        (nearestLater (colAt (mergeAligned dfs) j) i) := by
    rw [hfinal,
      bfillCol_getD (ffillCol none (colAt (mergeAligned dfs) j)) i
        (by omega),
      nearestLater_ffillCol (colAt (mergeAligned dfs) j) none i (by omega),
      Option.or_none]
  refine ⟨hmain, fun hex => ?_⟩
  rw [hmain]
  intro hnone
  have hboth : nearestEarlier (colAt (mergeAligned dfs) j) i = none ∧
      nearestLater (colAt (mergeAligned dfs) j) i = none := by
    cases hne : nearestEarlier (colAt (mergeAligned dfs) j) i <;>
      cases hnl : nearestLater (colAt (mergeAligned dfs) j) i <;>
      simp_all [Option.or]
  obtain ⟨v, hv, hvne⟩ := hex
  have hsplit : v ∈ (colAt (mergeAligned dfs) j).take (i + 1) ∨
      v ∈ (colAt (mergeAligned dfs) j).drop (i + 1) := by
    rw [← List.mem_append, List.take_append_drop]
    exact hv
  rcases hsplit with h | h
  · have hall := List.findSome?_eq_none_iff.mp hboth.1
    exact hvne (hall v ((List.mem_reverse).mpr h))
  · have hall := List.findSome?_eq_none_iff.mp hboth.2
    exact hvne (hall v
      ((List.drop_sublist_drop_left _ (Nat.le_succ i)).subset h))

/-- Witness: in the two-tag example the first row of column `B` is empty
before the fill and receives the backward-filled nearest later value. -/
theorem merge_dataframes_gap_fill_witness :
    (1 < ([("A", [((0 : Int), (1 : ℚ)), (60, 2)]),
        ("B", [(60, 3), (120, 4)])] : List (String × List (Int × ℚ))).length) ∧
      (0 < (mergeAligned [("A", [((0 : Int), (1 : ℚ)), (60, 2)]),
        ("B", [(60, 3), (120, 4)])]).length) ∧
      ((colAt (merge_dataframes [("A", [((0 : Int), (1 : ℚ)), (60, 2)]),
            ("B", [(60, 3), (120, 4)])]) 1).getD 0 none =
        (nearestEarlier (colAt (mergeAligned
            [("A", [((0 : Int), (1 : ℚ)), (60, 2)]),
              ("B", [(60, 3), (120, 4)])]) 1) 0).or
          (nearestLater (colAt (mergeAligned
            [("A", [((0 : Int), (1 : ℚ)), (60, 2)]),
              ("B", [(60, 3), (120, 4)])]) 1) 0) ∧
        ((∃ v ∈ colAt (mergeAligned [("A", [((0 : Int), (1 : ℚ)), (60, 2)]),
            ("B", [(60, 3), (120, 4)])]) 1, v ≠ none) →
          (colAt (merge_dataframes [("A", [((0 : Int), (1 : ℚ)), (60, 2)]),
            ("B", [(60, 3), (120, 4)])]) 1).getD 0 none ≠ none)) :=
  ⟨by decide, by decide,
    merge_dataframes_gap_fill
      [("A", [((0 : Int), (1 : ℚ)), (60, 2)]), ("B", [(60, 3), (120, 4)])]
      1 0 (by decide) (by decide)⟩

end Historian
